import Mathlib

/-!
Verification development for the MPRIS track-list core (`src/track_list.rs`).

The embedding translates the Rust source into pure Lean functions:

* `TrackID` wraps a string (D-Bus path validation is external and irrelevant
  to the properties below).
* `Metadata` is defined in a repository file outside `src/`; it is modelled
  from the spec as an opaque record exposing an optional `track_id` plus an
  opaque payload, and `Metadata.new id` is the empty record carrying `id`.
* `HashMap<TrackID, Metadata>` is modelled as an association list `Cache`
  with `Cache.find` as the extensional view; `insert` overwrites in place,
  `collect`/`extend` are folds of `insert`.
* The `RefCell` around the cache is modelled by a `BorrowFlag` describing the
  borrow state at entry to a method taking a shared receiver (`free`: no
  outstanding borrow, `reading`: an outstanding shared borrow, `writing`: an
  outstanding exclusive borrow).  Per `RefCell` semantics, `borrow()` panics
  iff an exclusive borrow is outstanding, `borrow_mut()` panics iff any
  borrow is outstanding, and `try_borrow_mut()` returns `Err` in exactly the
  cases where `borrow_mut()` would panic.  `Outcome` distinguishes a normal
  result, a returned `TrackListError`, and a panic.
* The remote collaborator (`Player`) lives outside `src/`; its two fetches
  are passed in as explicit values/functions per the collaborator contract.
-/

namespace Mpris

/-- A track identifier: wraps the underlying D-Bus path string
(`pub struct TrackID(pub(crate) String)`). -/
structure TrackID where
  path : String
deriving DecidableEq

/-- Modelled from the spec: the `Metadata` type is defined outside `src/`.
Per the spec it is opaque to this core except for one accessor, "extract the
Identifier this record claims to describe, if any"; the remaining fields are
an opaque payload. -/
structure Metadata where
  track_id : Option TrackID
  payload : List (String × String)
deriving DecidableEq

/-- Modelled from the spec: `Metadata::new(id)` (defined outside `src/`)
synthesizes "a freshly synthesized empty Metadata record carrying just that
identifier". -/
def Metadata.new (id : TrackID) : Metadata :=
  { track_id := some id, payload := [] }

/-- Model of `HashMap<TrackID, Metadata>`: an association list.  All
extensional facts are stated through `Cache.find`. -/
abbrev Cache := List (TrackID × Metadata)

/-- Model of `HashMap::get` / `contains_key`: first entry with the key. -/
def Cache.find : Cache → TrackID → Option Metadata
  | [], _ => none
  | (k, v) :: rest, id => if k = id then some v else Cache.find rest id

/-- Model of `HashMap::insert`: overwrite the entry in place if the key is
present, otherwise add a fresh entry. -/
def Cache.insert : Cache → TrackID → Metadata → Cache
  | [], id, m => [(id, m)]
  | (k, v) :: rest, id, m =>
    if k = id then (id, m) :: rest else (k, v) :: Cache.insert rest id m

/-- Model of `HashMap::remove` (drop the entry for the key, if any). -/
def Cache.remove (c : Cache) (id : TrackID) : Cache :=
  c.filter (fun p => decide (p.1 ≠ id))

/-- The keys of a cache. -/
def Cache.keys (c : Cache) : List TrackID :=
  c.map Prod.fst

/-- A cache with no duplicate keys: the invariant every `HashMap` value
satisfies. -/
abbrev Cache.WF (c : Cache) : Prop :=
  c.keys.Nodup

/-- Model of `HashMap::extend`: fold the other map's entries in with
`insert`, so the other map's entries win on key conflict. -/
def Cache.extend (c other : Cache) : Cache :=
  other.foldl (fun acc p => Cache.insert acc p.1 p.2) c

/-- Model of `Iterator::collect::<HashMap<_, _>>()` on a sequence of pairs. -/
def Cache.ofList (l : List (TrackID × Metadata)) : Cache :=
  l.foldl (fun acc p => Cache.insert acc p.1 p.2) []

/-- The upsert loop of `TrackList::complete_cache`: insert each fetched
record under the id it reports; a record reporting no id is silently
dropped. -/
def Cache.upsertAll (c : Cache) (ms : List Metadata) : Cache :=
  ms.foldl
    (fun cache info =>
      match info.track_id with
      | some id => cache.insert id info
      | none => cache)
    c

/-- `D-Bus` transport errors are opaque external values. -/
structure DBusError where
  message : String
deriving DecidableEq

/-- `enum TrackListError { DBusError(DBusError), BorrowError(String) }`. -/
inductive TrackListError where
  | DBusError : Mpris.DBusError → TrackListError
  | BorrowError : String → TrackListError
deriving DecidableEq

/-- The message built by `From<BorrowMutError> for TrackListError`
(`format!` of the std `BorrowMutError` display text). -/
def borrowErrorMessage : String :=
  "Could not borrow mutably: already borrowed"

/-- Borrow state of the cache's `RefCell` at entry to a method on a shared
receiver: no outstanding borrow, an outstanding shared borrow, or an
outstanding exclusive borrow. -/
inductive BorrowFlag where
  | free
  | reading
  | writing
deriving DecidableEq

/-- The observable result of a call that may return normally, return a
`TrackListError`, or panic (as `RefCell::borrow`/`borrow_mut` do on a
conflicting outstanding borrow). -/
inductive Outcome (α : Type) where
  | ok : α → Outcome α
  | err : TrackListError → Outcome α
  | panicked : Outcome α
deriving DecidableEq

/-- `struct TrackList { ids: Vec<TrackID>, metadata_cache: RefCell<HashMap<..>> }`. -/
structure TrackList where
  ids : List TrackID
  metadata_cache : Cache
deriving DecidableEq

/-- `TrackList::new`: the given ids with an empty cache. -/
def TrackList.new (ids : List TrackID) : TrackList :=
  { ids := ids, metadata_cache := [] }

/-- `TrackList::len`. -/
def TrackList.len (tl : TrackList) : Nat :=
  tl.ids.length

/-- The index of the first element equal to `after`, mirroring
`ids.iter().enumerate().find(|(_, id)| *id == after).map(|(index, _)| index)`. -/
def findFirstIndex (after : TrackID) : List TrackID → Option Nat
  | [] => none
  | id :: rest =>
    if id = after then some 0 else (findFirstIndex after rest).map (· + 1)

/-- `TrackList::insert`: no-op when the metadata carries no id; otherwise
insert the new id right after the first occurrence of `after` (append when
`after` is absent, via `unwrap_or_else(len)`), and upsert the metadata into
the cache under the new id.  `Vec::insert(index + 1, x)` is rendered as
take/drop around position `index + 1`. -/
def TrackList.insert (tl : TrackList) (after : TrackID) (metadata : Metadata) :
    TrackList :=
  match metadata.track_id with
  | none => tl
  | some new_id =>
    let index := (findFirstIndex after tl.ids).getD tl.ids.length
    let ids :=
      if tl.ids.length ≤ index then
        tl.ids ++ [new_id]
      else
        tl.ids.take (index + 1) ++ new_id :: tl.ids.drop (index + 1)
    { ids := ids, metadata_cache := tl.metadata_cache.insert new_id metadata }

/-- `TrackList::remove`: `retain(|existing_id| existing_id != id)` on the
ids, and remove the cache entry. -/
def TrackList.remove (tl : TrackList) (id : TrackID) : TrackList :=
  { ids := tl.ids.filter (fun existing_id => decide (existing_id ≠ id)),
    metadata_cache := tl.metadata_cache.remove id }

/-- `TrackList::replace`: take `other`'s ids wholesale and `extend` the own
cache with `other`'s cache (other wins on conflict). -/
def TrackList.replace (tl : TrackList) (other : TrackList) : TrackList :=
  { ids := other.ids,
    metadata_cache := tl.metadata_cache.extend other.metadata_cache }

/-- `TrackList::update_metadata`: upsert the cache entry for `id`. -/
def TrackList.update_metadata (tl : TrackList) (id : TrackID)
    (metadata : Metadata) : TrackList :=
  { tl with metadata_cache := tl.metadata_cache.insert id metadata }

/-- The loop of `TrackList::clear_extra_cache`: walk the ids in order,
`HashMap::remove` each from the old cache (so a duplicated id contributes
only once) and keep the `(id, value)` pairs that were present. -/
def clearExtraLoop : List TrackID → Cache → List (TrackID × Metadata)
  | [], _ => []
  | id :: rest, cache =>
    match cache.find id with
    | some value => (id, value) :: clearExtraLoop rest (cache.remove id)
    | none => clearExtraLoop rest cache

/-- `TrackList::clear_extra_cache`: replace the cache with the collected
pairs for ids on the list. -/
def TrackList.clear_extra_cache (tl : TrackList) : TrackList :=
  { tl with
      metadata_cache := Cache.ofList (clearExtraLoop tl.ids tl.metadata_cache) }

/-- `TrackList::reload`: `self.ids = player.get_track_list()?.ids` then
`clear_extra_cache`; the remote fetch result is passed in explicitly. -/
def TrackList.reload (tl : TrackList)
    (get_track_list : Except DBusError (List TrackID)) :
    Except TrackListError TrackList :=
  match get_track_list with
  | .error e => .error (.DBusError e)
  | .ok ids => .ok (TrackList.clear_extra_cache { tl with ids := ids })

/-- `TrackList::reload_cache`: fetch metadata for all ids (propagating the
error), then `borrow_mut` the cache — which panics when any borrow is
outstanding — and replace it with the collected zip of ids and records.
Returns the outcome paired with the resulting state. -/
def TrackList.reload_cache (tl : TrackList) (flag : BorrowFlag)
    (get_tracks_metadata : Except DBusError (List Metadata)) :
    Outcome Unit × TrackList :=
  match get_tracks_metadata with
  | .error e => (.err (.DBusError e), tl)
  | .ok metadata =>
    match flag with
    | .free =>
      (.ok (), { tl with metadata_cache := Cache.ofList (tl.ids.zip metadata) })
    | _ => (.panicked, tl)

/-- `TrackList::ids_without_cache`: the ids on the list with no cache entry,
in list order. -/
def TrackList.ids_without_cache (tl : TrackList) : List TrackID :=
  tl.ids.filter (fun id => !(Cache.find tl.metadata_cache id).isSome)

/-- `TrackList::complete_cache`: `ids_without_cache` first takes a shared
borrow (which panics when an exclusive borrow is outstanding); when the
missing set is empty nothing further happens; otherwise fetch the missing
records (propagating the error), `try_borrow_mut` the cache — a
`BorrowError` when a borrow is outstanding — and upsert each record under
the id it reports, silently dropping records with no id. -/
def TrackList.complete_cache (tl : TrackList) (flag : BorrowFlag)
    (get_tracks_metadata : List TrackID → Except DBusError (List Metadata)) :
    Outcome Unit × TrackList :=
  match flag with
  | .writing => (.panicked, tl)
  | _ =>
    let ids := tl.ids_without_cache
    if ids.isEmpty then (.ok (), tl)
    else
      match get_tracks_metadata ids with
      | .error e => (.err (.DBusError e), tl)
      | .ok metadata =>
        match flag with
        | .free =>
          (.ok (),
            { tl with
                metadata_cache := tl.metadata_cache.upsertAll metadata })
        | _ => (.err (.BorrowError borrowErrorMessage), tl)

/-- `struct MetadataIter { order, metadata, current }`: the snapshot
iterator. -/
structure MetadataIter where
  order : List TrackID
  metadata : Cache
  current : Nat
deriving DecidableEq

/-- `MetadataIter::next`: when the cursor is within the order, advance it and
yield the cached record for the current id — removing it from the snapshot
map — or a fresh `Metadata::new` placeholder when the map has none;
otherwise yield nothing.  Returns the yielded item with the updated
iterator. -/
def MetadataIter.next (it : MetadataIter) : Option Metadata × MetadataIter :=
  match it.order.get? it.current with
  | some next_id =>
    (some ((Cache.find it.metadata next_id).getD (Metadata.new next_id)),
      { it with
          current := it.current + 1,
          metadata := it.metadata.remove next_id })
  | none => (none, it)

/-! ### Cache lemmas -/

theorem Cache.find_insert_self (c : Cache) (k : TrackID) (v : Metadata) :
    (c.insert k v).find k = some v := by
  induction c with
  | nil => simp [Cache.insert, Cache.find]
  | cons p rest ih =>
    obtain ⟨a, b⟩ := p
    by_cases h : a = k
    · simp [Cache.insert, h, Cache.find]
    · simp [Cache.insert, h, Cache.find, ih]

theorem Cache.find_insert_ne (c : Cache) (k : TrackID) (v : Metadata)
    (k' : TrackID) (hne : k' ≠ k) : (c.insert k v).find k' = c.find k' := by
  have hkk : ¬k = k' := fun h => hne h.symm
  induction c with
  | nil => simp [Cache.insert, Cache.find, hkk]
  | cons p rest ih =>
    obtain ⟨a, b⟩ := p
    by_cases h : a = k
    · subst h
      simp [Cache.insert, Cache.find, hkk]
    · simp [Cache.insert, h, Cache.find, ih]

theorem Cache.find_remove_self (c : Cache) (k : TrackID) :
    (c.remove k).find k = none := by
  induction c with
  | nil => rfl
  | cons p rest ih =>
    obtain ⟨a, b⟩ := p
    by_cases h : a = k
    · simpa [Cache.remove, List.filter_cons, h] using ih
    · simpa [Cache.remove, List.filter_cons, h, Cache.find] using ih

theorem Cache.find_remove_ne (c : Cache) (k : TrackID) (k' : TrackID)
    (hne : k' ≠ k) : (c.remove k).find k' = c.find k' := by
  induction c with
  | nil => rfl
  | cons p rest ih =>
    obtain ⟨a, b⟩ := p
    by_cases h : a = k
    · have hkk' : ¬k = k' := fun hh => hne hh.symm
      simpa [Cache.remove, List.filter_cons, h, Cache.find, hkk'] using ih
    · simp [Cache.remove, List.filter_cons, h, Cache.find] at ih ⊢
      by_cases h' : a = k'
      · simp [h']
      · simp [h', ih]

theorem Cache.isSome_find_iff_mem_keys (c : Cache) (k : TrackID) :
    (c.find k).isSome ↔ k ∈ c.keys := by
  induction c with
  | nil => simp [Cache.find, Cache.keys]
  | cons p rest ih =>
    obtain ⟨a, b⟩ := p
    by_cases h : a = k
    · simp [Cache.find, Cache.keys, h]
    · simp [Cache.find, Cache.keys, h, Ne.symm h, ih]

theorem Cache.find_foldl_insert_of_not_mem (l : List (TrackID × Metadata))
    (c : Cache) (k : TrackID) (h : k ∉ l.map Prod.fst) :
    Cache.find (l.foldl (fun acc p => Cache.insert acc p.1 p.2) c) k =
      c.find k := by
  induction l generalizing c with
  | nil => rfl
  | cons p rest ih =>
    simp only [List.map_cons, List.mem_cons, not_or] at h
    simp only [List.foldl_cons]
    rw [ih _ h.2, Cache.find_insert_ne _ _ _ _ h.1]

theorem Cache.find_foldl_insert_nodup (l : List (TrackID × Metadata))
    (hnd : (l.map Prod.fst).Nodup) (c : Cache) (k : TrackID) :
    Cache.find (l.foldl (fun acc p => Cache.insert acc p.1 p.2) c) k =
      match Cache.find l k with
      | some v => some v
      | none => c.find k := by
  induction l generalizing c with
  | nil => simp [Cache.find]
  | cons p rest ih =>
    obtain ⟨a, b⟩ := p
    simp only [List.map_cons, List.nodup_cons] at hnd
    simp only [List.foldl_cons]
    rw [ih hnd.2]
    by_cases h : a = k
    · subst h
      have hnone : Cache.find rest a = none := by
        cases hfind : Cache.find rest a with
        | none => rfl
        | some v =>
          exact absurd ((Cache.isSome_find_iff_mem_keys rest a).mp
            (by simp [hfind])) hnd.1
      simp [Cache.find, hnone, Cache.find_insert_self]
    · simp [Cache.find, h, Cache.find_insert_ne _ _ _ _ (Ne.symm h)]

theorem Cache.find_ofList_nodup (l : List (TrackID × Metadata))
    (hnd : (l.map Prod.fst).Nodup) (k : TrackID) :
    (Cache.ofList l).find k = Cache.find l k := by
  rw [Cache.ofList, Cache.find_foldl_insert_nodup l hnd [] k]
  cases Cache.find l k <;> simp [Cache.find]

theorem Cache.find_ofList_of_not_mem (l : List (TrackID × Metadata))
    (k : TrackID) (h : k ∉ l.map Prod.fst) : (Cache.ofList l).find k = none := by
  rw [Cache.ofList, Cache.find_foldl_insert_of_not_mem l [] k h]
  rfl

theorem Cache.upsertAll_cons (c : Cache) (m : Metadata) (ms : List Metadata) :
    c.upsertAll (m :: ms) =
      (match m.track_id with
       | some id => c.insert id m
       | none => c).upsertAll ms := by
  obtain ⟨tid, pl⟩ := m
  cases tid <;> rfl

theorem Cache.isSome_find_upsertAll (c : Cache) (ms : List Metadata)
    (k : TrackID)
    (h : (c.find k).isSome ∨ ∃ m ∈ ms, m.track_id = some k) :
    ((c.upsertAll ms).find k).isSome := by
  induction ms generalizing c with
  | nil =>
    rcases h with h | ⟨m, hm, _⟩
    · simpa [Cache.upsertAll] using h
    · exact absurd hm (List.not_mem_nil m)
  | cons m rest ih =>
    rw [Cache.upsertAll_cons]
    cases htid : m.track_id with
    | none =>
      apply ih
      rcases h with hsome | ⟨m', hm', hid⟩
      · exact Or.inl hsome
      · rcases List.mem_cons.mp hm' with rfl | hmem
        · rw [htid] at hid
          exact absurd hid (by simp)
        · exact Or.inr ⟨m', hmem, hid⟩
    | some id =>
      apply ih
      rcases h with hsome | ⟨m', hm', hid⟩
      · left
        by_cases hk : id = k
        · subst hk
          simp [Cache.find_insert_self]
        · rw [Cache.find_insert_ne _ _ _ _ (Ne.symm hk)]
          exact hsome
      · rcases List.mem_cons.mp hm' with rfl | hmem
        · left
          rw [htid] at hid
          injection hid with hh
          subst hh
          simp [Cache.find_insert_self]
        · exact Or.inr ⟨m', hmem, hid⟩

/-! ### clear_extra_cache lemmas -/

theorem find_clearExtraLoop (ids : List TrackID) (c : Cache) (k : TrackID) :
    Cache.find (clearExtraLoop ids c) k = if k ∈ ids then c.find k else none := by
  induction ids generalizing c with
  | nil => simp [clearExtraLoop, Cache.find]
  | cons id rest ih =>
    cases hfind : Cache.find c id with
    | some v =>
      by_cases hk : id = k
      · subst hk
        simp [clearExtraLoop, hfind, Cache.find]
      · have hrem := ih (c.remove id)
        rw [Cache.find_remove_ne c id k (Ne.symm hk)] at hrem
        simp only [clearExtraLoop, hfind, Cache.find]
        rw [if_neg hk, hrem]
        simp [List.mem_cons, Ne.symm hk]
    | none =>
      by_cases hk : id = k
      · subst hk
        simp only [clearExtraLoop, hfind]
        rw [ih]
        simp [hfind, List.mem_cons]
      · simp only [clearExtraLoop, hfind]
        rw [ih]
        simp [List.mem_cons, Ne.symm hk]

theorem keys_clearExtraLoop_nodup (ids : List TrackID) (c : Cache) :
    ((clearExtraLoop ids c).map Prod.fst).Nodup := by
  induction ids generalizing c with
  | nil => simp [clearExtraLoop]
  | cons id rest ih =>
    cases hfind : Cache.find c id with
    | some v =>
      simp only [clearExtraLoop, hfind, List.map_cons, List.nodup_cons]
      constructor
      · intro hmem
        have := (Cache.isSome_find_iff_mem_keys
          (clearExtraLoop rest (c.remove id)) id).mpr hmem
        rw [find_clearExtraLoop] at this
        by_cases h : id ∈ rest
        · rw [if_pos h, Cache.find_remove_self] at this
          simp at this
        · rw [if_neg h] at this
          simp at this
      · exact ih _
    | none =>
      simpa [clearExtraLoop, hfind] using ih c

theorem find_clear_extra_cache (tl : TrackList) (k : TrackID) :
    Cache.find (tl.clear_extra_cache).metadata_cache k =
      if k ∈ tl.ids then Cache.find tl.metadata_cache k else none := by
  show Cache.find (Cache.ofList (clearExtraLoop tl.ids tl.metadata_cache)) k = _
  rw [Cache.find_ofList_nodup _ (keys_clearExtraLoop_nodup _ _),
    find_clearExtraLoop]

/-! ### findFirstIndex lemmas -/

theorem findFirstIndex_eq_none (after : TrackID) (l : List TrackID)
    (h : after ∉ l) : findFirstIndex after l = none := by
  induction l with
  | nil => rfl
  | cons a rest ih =>
    simp only [List.mem_cons, not_or] at h
    have ha : ¬a = after := fun hh => h.1 hh.symm
    simp [findFirstIndex, ha, ih h.2]

theorem findFirstIndex_eq_some (after : TrackID) (l : List TrackID) (i : Nat)
    (h1 : l.get? i = some after) (h2 : after ∉ l.take i) :
    findFirstIndex after l = some i := by
  induction l generalizing i with
  | nil => simp [List.get?] at h1
  | cons a rest ih =>
    cases i with
    | zero =>
      simp only [List.get?] at h1
      injection h1 with h1
      simp [findFirstIndex, h1]
    | succ i =>
      simp only [List.take_succ_cons, List.mem_cons, not_or] at h2
      have ha : ¬a = after := fun hh => h2.1 hh.symm
      simp only [List.get?] at h1
      simp [findFirstIndex, ha, ih i h1 h2.2]

theorem get?_some_lt {l : List TrackID} {i : Nat} {a : TrackID}
    (h : l.get? i = some a) : i < l.length := by
  induction l generalizing i with
  | nil => simp [List.get?] at h
  | cons b rest ih =>
    cases i with
    | zero => simp
    | succ i =>
      simp only [List.get?] at h
      simpa using ih h

/-! ### Claim theorems -/

/-- C1: when the metadata record carries identifier `x`, `insert(after, m)`
places `x` immediately after the first occurrence of `after` (all other
elements keeping their relative order, rendered by the take/drop split at
the first occurrence), appends `x` at the end when `after` does not occur,
and in both cases sets the cache entry for `x` to `m`. -/
theorem insert_places_after_first_occurrence (tl : TrackList)
    (after : TrackID) (m : Metadata) (x : TrackID)
    (hx : m.track_id = some x) :
    (∀ i, tl.ids.get? i = some after → after ∉ tl.ids.take i →
      (tl.insert after m).ids =
        tl.ids.take (i + 1) ++ x :: tl.ids.drop (i + 1)) ∧
    (after ∉ tl.ids → (tl.insert after m).ids = tl.ids ++ [x]) ∧
    Cache.find (tl.insert after m).metadata_cache x = some m := by
  refine ⟨?_, ?_, ?_⟩
  · intro i h1 h2
    have hidx : findFirstIndex after tl.ids = some i :=
      findFirstIndex_eq_some _ _ _ h1 h2
    have hlt : i < tl.ids.length := get?_some_lt h1
    simp [TrackList.insert, hx, hidx, Nat.not_le.mpr hlt]
  · intro h
    have hidx : findFirstIndex after tl.ids = none :=
      findFirstIndex_eq_none _ _ h
    simp [TrackList.insert, hx, hidx]
  · cases hidx : findFirstIndex after tl.ids with
    | none =>
      simp only [TrackList.insert, hx, hidx]
      exact Cache.find_insert_self _ _ _
    | some i =>
      simp only [TrackList.insert, hx, hidx]
      exact Cache.find_insert_self _ _ _

/-- C1 witness: the spec scenario, list `[/t/1, /t/3]`, empty cache,
inserting metadata for `/t/2` after `/t/1`. -/
theorem insert_places_after_first_occurrence_witness :
    (TrackList.insert ⟨[⟨"/t/1"⟩, ⟨"/t/3"⟩], []⟩ ⟨"/t/1"⟩
        ⟨some ⟨"/t/2"⟩, []⟩).ids = [⟨"/t/1"⟩, ⟨"/t/2"⟩, ⟨"/t/3"⟩] ∧
    Cache.find (TrackList.insert ⟨[⟨"/t/1"⟩, ⟨"/t/3"⟩], []⟩ ⟨"/t/1"⟩
        ⟨some ⟨"/t/2"⟩, []⟩).metadata_cache ⟨"/t/2"⟩ =
      some ⟨some ⟨"/t/2"⟩, []⟩ := by
  have h := insert_places_after_first_occurrence ⟨[⟨"/t/1"⟩, ⟨"/t/3"⟩], []⟩
    ⟨"/t/1"⟩ ⟨some ⟨"/t/2"⟩, []⟩ ⟨"/t/2"⟩ rfl
  exact ⟨by simpa using h.1 0 rfl (by decide), h.2.2⟩

/-- C2 counterexample: `reload_cache` reaches `borrow_mut` with a shared
borrow outstanding and panics instead of returning a `BorrowError`. -/
theorem reload_cache_panics_on_outstanding_borrow :
    (TrackList.reload_cache ⟨[⟨"/t/1"⟩], []⟩ BorrowFlag.reading
        (Except.ok [⟨some ⟨"/t/1"⟩, []⟩])).1 = Outcome.panicked ∧
    ∀ s, (TrackList.reload_cache ⟨[⟨"/t/1"⟩], []⟩ BorrowFlag.reading
        (Except.ok [⟨some ⟨"/t/1"⟩, []⟩])).1 ≠
      Outcome.err (TrackListError.BorrowError s) := by
  refine ⟨rfl, fun s h => ?_⟩
  exact Outcome.noConfusion h

/-- C2 (amended): only `complete_cache` surfaces the borrow conflict as a
`BorrowError`: with an outstanding shared borrow, a nonempty missing set
and a successful fetch it returns `BorrowError` without panicking and
leaves the state unchanged; `reload_cache` panics on any outstanding
borrow, and `complete_cache` panics when the outstanding borrow is
exclusive. -/
theorem complete_cache_borrow_error (tl : TrackList)
    (f : List TrackID → Except DBusError (List Metadata))
    (ms : List Metadata)
    (hne : tl.ids_without_cache ≠ [])
    (hok : f tl.ids_without_cache = Except.ok ms) :
    tl.complete_cache BorrowFlag.reading f =
      (Outcome.err (TrackListError.BorrowError borrowErrorMessage), tl) ∧
    (∀ ms' : List Metadata,
      (tl.reload_cache BorrowFlag.reading (Except.ok ms')).1 =
        Outcome.panicked ∧
      (tl.reload_cache BorrowFlag.writing (Except.ok ms')).1 =
        Outcome.panicked) ∧
    (tl.complete_cache BorrowFlag.writing f).1 = Outcome.panicked := by
  refine ⟨?_, fun ms' => ⟨rfl, rfl⟩, rfl⟩
  have hempty : tl.ids_without_cache.isEmpty = false := by
    cases hh : tl.ids_without_cache with
    | nil => exact absurd hh hne
    | cons a l => simp [hh]
  simp [TrackList.complete_cache, hempty, hok]

/-- C2 witness for the amended statement. -/
theorem complete_cache_borrow_error_witness :
    TrackList.complete_cache ⟨[⟨"/t/1"⟩], []⟩ BorrowFlag.reading
        (fun _ => Except.ok []) =
      (Outcome.err (TrackListError.BorrowError borrowErrorMessage),
        ⟨[⟨"/t/1"⟩], []⟩) :=
  (complete_cache_borrow_error ⟨[⟨"/t/1"⟩], []⟩ (fun _ => Except.ok []) []
    (by decide) rfl).1

/-- C3: with no outstanding borrow, `reload_cache` on fetch success replaces
the whole cache with the positional zip of the ids and the fetched records
(so every entry keyed outside the id sequence is gone), and on fetch
failure returns the `DBusError` with the state exactly as before, whatever
the borrow state. -/
theorem reload_cache_atomic (tl : TrackList) :
    (∀ ms : List Metadata,
      tl.reload_cache BorrowFlag.free (Except.ok ms) =
        (Outcome.ok (),
          { tl with metadata_cache := Cache.ofList (tl.ids.zip ms) }) ∧
      ∀ k, k ∉ tl.ids →
        Cache.find
          (tl.reload_cache BorrowFlag.free (Except.ok ms)).2.metadata_cache
          k = none) ∧
    (∀ (flag : BorrowFlag) (e : DBusError),
      tl.reload_cache flag (Except.error e) =
        (Outcome.err (TrackListError.DBusError e), tl)) := by
  refine ⟨fun ms => ⟨rfl, fun k hk => ?_⟩, fun flag e => rfl⟩
  show Cache.find (Cache.ofList (tl.ids.zip ms)) k = none
  apply Cache.find_ofList_of_not_mem
  intro hmem
  obtain ⟨⟨a, b⟩, hp, rfl⟩ := List.mem_map.mp hmem
  exact hk (List.of_mem_zip hp).1

/-- C3 witness: a stale entry for `/t/2` is dropped by a successful
reload of the cache. -/
theorem reload_cache_atomic_witness :
    Cache.find
      (TrackList.reload_cache ⟨[⟨"/t/1"⟩], [(⟨"/t/2"⟩, ⟨some ⟨"/t/2"⟩, []⟩)]⟩
          BorrowFlag.free
          (Except.ok [⟨some ⟨"/t/1"⟩, []⟩])).2.metadata_cache
      ⟨"/t/2"⟩ = none :=
  ((reload_cache_atomic
      ⟨[⟨"/t/1"⟩], [(⟨"/t/2"⟩, ⟨some ⟨"/t/2"⟩, []⟩)]⟩).1
    [⟨some ⟨"/t/1"⟩, []⟩]).2 ⟨"/t/2"⟩ (by decide)

/-- C4 counterexample: a successful first call whose fetched record reports
no identifier fills nothing, so its resulting state still has a nonempty
missing set and the second call performs a remote call again. -/
theorem complete_cache_not_idempotent :
    (TrackList.complete_cache ⟨[⟨"/t/1"⟩], []⟩ BorrowFlag.free
        (fun _ => Except.ok [⟨none, []⟩])).1 = Outcome.ok () ∧
    (TrackList.complete_cache ⟨[⟨"/t/1"⟩], []⟩ BorrowFlag.free
        (fun _ => Except.ok [⟨none, []⟩])).2.ids_without_cache =
      [⟨"/t/1"⟩] := by
  exact ⟨rfl, rfl⟩

/-- C4 (amended): provided every identifier of the missing set is reported
by some fetched record, a first `complete_cache` call that fetches
successfully leaves no identifier of the list without a cache entry, so an
immediately repeated call computes an empty missing set, performs no
remote call, and returns the state unchanged. -/
theorem complete_cache_idempotent_of_covering (tl : TrackList)
    (f : List TrackID → Except DBusError (List Metadata))
    (ms : List Metadata)
    (hok : f tl.ids_without_cache = Except.ok ms)
    (hcov : ∀ id ∈ tl.ids_without_cache, ∃ m ∈ ms, m.track_id = some id) :
    ∃ tl1, tl.complete_cache BorrowFlag.free f = (Outcome.ok (), tl1) ∧
      tl1.ids_without_cache = [] ∧
      tl1.complete_cache BorrowFlag.free f = (Outcome.ok (), tl1) := by
  cases hempty : tl.ids_without_cache.isEmpty with
  | true =>
    have hnil : tl.ids_without_cache = [] := by
      cases hh : tl.ids_without_cache with
      | nil => rfl
      | cons a l => rw [hh] at hempty; simp at hempty
    refine ⟨tl, ?_, hnil, ?_⟩ <;> simp [TrackList.complete_cache, hempty]
  | false =>
    have hall : ∀ id ∈ tl.ids,
        (Cache.find (tl.metadata_cache.upsertAll ms) id).isSome := by
      intro id hid
      by_cases hc : (Cache.find tl.metadata_cache id).isSome
      · exact Cache.isSome_find_upsertAll _ _ _ (Or.inl hc)
      · have hc' : Cache.find tl.metadata_cache id = none :=
          Option.not_isSome_iff_eq_none.mp hc
        have hmem : id ∈ tl.ids_without_cache := by
          simp [TrackList.ids_without_cache, List.mem_filter, hid, hc']
        exact Cache.isSome_find_upsertAll _ _ _ (Or.inr (hcov id hmem))
    have hmissing :
        ({ tl with metadata_cache := tl.metadata_cache.upsertAll ms } :
          TrackList).ids_without_cache = [] := by
      show List.filter _ tl.ids = []
      rw [List.filter_eq_nil_iff]
      intro id hid
      simp [hall id hid]
    refine ⟨{ tl with metadata_cache := tl.metadata_cache.upsertAll ms },
      ?_, hmissing, ?_⟩
    · simp [TrackList.complete_cache, hempty, hok]
    · simp [TrackList.complete_cache, hmissing]

/-- C4 witness: a well-behaved fetch covering the missing set. -/
theorem complete_cache_idempotent_witness :
    ∃ tl1, TrackList.complete_cache ⟨[⟨"/t/1"⟩], []⟩ BorrowFlag.free
        (fun _ => Except.ok [⟨some ⟨"/t/1"⟩, []⟩]) = (Outcome.ok (), tl1) ∧
      tl1.ids_without_cache = [] ∧
      tl1.complete_cache BorrowFlag.free
        (fun _ => Except.ok [⟨some ⟨"/t/1"⟩, []⟩]) = (Outcome.ok (), tl1) :=
  complete_cache_idempotent_of_covering ⟨[⟨"/t/1"⟩], []⟩
    (fun _ => Except.ok [⟨some ⟨"/t/1"⟩, []⟩]) [⟨some ⟨"/t/1"⟩, []⟩]
    rfl (by decide)

/-- C5: a successful `reload` replaces the id sequence with the fetched
list and keeps exactly the prior cache entries whose key occurs in the new
sequence, with their prior values; entries for keys no longer on the list
are dropped. -/
theorem reload_replaces_ids_and_prunes (tl : TrackList)
    (newIds : List TrackID) :
    ∃ tl', tl.reload (Except.ok newIds) = Except.ok tl' ∧
      tl'.ids = newIds ∧
      ∀ k, Cache.find tl'.metadata_cache k =
        if k ∈ newIds then Cache.find tl.metadata_cache k else none := by
  refine ⟨_, rfl, rfl, fun k => ?_⟩
  have h := find_clear_extra_cache { tl with ids := newIds } k
  simpa using h

/-- C6: `replace(other)` takes `other`'s id sequence and merges the caches
with `other` winning on every conflicting key; an entry whose key `other`'s
cache lacks is retained unchanged, whether or not the key is in the new id
order. -/
theorem replace_merges_cache_other_wins (tl other : TrackList)
    (hwf : Cache.WF other.metadata_cache) :
    (tl.replace other).ids = other.ids ∧
    ∀ k, Cache.find (tl.replace other).metadata_cache k =
      match Cache.find other.metadata_cache k with
      | some v => some v
      | none => Cache.find tl.metadata_cache k := by
  refine ⟨rfl, fun k => ?_⟩
  show Cache.find (tl.metadata_cache.extend other.metadata_cache) k = _
  exact Cache.find_foldl_insert_nodup _ hwf _ _

/-- C6 witness: a conflicting key goes to `other`'s entry, and an entry
absent from `other`'s cache (and from the new order) is retained. -/
theorem replace_merges_cache_other_wins_witness :
    (TrackList.replace
        ⟨[], [(⟨"/t/1"⟩, ⟨none, []⟩), (⟨"/t/2"⟩, ⟨none, []⟩)]⟩
        ⟨[⟨"/t/3"⟩], [(⟨"/t/1"⟩, ⟨some ⟨"/t/1"⟩, []⟩)]⟩).ids = [⟨"/t/3"⟩] ∧
    Cache.find (TrackList.replace
        ⟨[], [(⟨"/t/1"⟩, ⟨none, []⟩), (⟨"/t/2"⟩, ⟨none, []⟩)]⟩
        ⟨[⟨"/t/3"⟩], [(⟨"/t/1"⟩, ⟨some ⟨"/t/1"⟩, []⟩)]⟩).metadata_cache
      ⟨"/t/1"⟩ = some ⟨some ⟨"/t/1"⟩, []⟩ ∧
    Cache.find (TrackList.replace
        ⟨[], [(⟨"/t/1"⟩, ⟨none, []⟩), (⟨"/t/2"⟩, ⟨none, []⟩)]⟩
        ⟨[⟨"/t/3"⟩], [(⟨"/t/1"⟩, ⟨some ⟨"/t/1"⟩, []⟩)]⟩).metadata_cache
      ⟨"/t/2"⟩ = some ⟨none, []⟩ := by
  have h := replace_merges_cache_other_wins
    ⟨[], [(⟨"/t/1"⟩, ⟨none, []⟩), (⟨"/t/2"⟩, ⟨none, []⟩)]⟩
    ⟨[⟨"/t/3"⟩], [(⟨"/t/1"⟩, ⟨some ⟨"/t/1"⟩, []⟩)]⟩ (by decide)
  refine ⟨h.1, ?_, ?_⟩
  · have h1 := h.2 ⟨"/t/1"⟩
    simpa using h1
  · have h2 := h.2 ⟨"/t/2"⟩
    simpa using h2

/-- C7: `next()` on a live cursor advances it and yields the cached record
for the current identifier — removing it from the snapshot map — or a
fresh placeholder carrying just that identifier when the map has none; an
exhausted cursor yields nothing; and the `[a, b, a]`-with-`{a: M1}`
iterator yields `M1`, a placeholder for `b`, a placeholder for `a`, then
nothing. -/
theorem metadata_iter_next_spec (it : MetadataIter) :
    (∀ next_id, it.order.get? it.current = some next_id →
      it.next =
        (some ((Cache.find it.metadata next_id).getD (Metadata.new next_id)),
          { it with
              current := it.current + 1,
              metadata := it.metadata.remove next_id })) ∧
    (it.order.get? it.current = none → it.next = (none, it)) ∧
    (MetadataIter.next
        ⟨[⟨"/a"⟩, ⟨"/b"⟩, ⟨"/a"⟩],
          [(⟨"/a"⟩, ⟨some ⟨"/a"⟩, [("title", "One")]⟩)], 0⟩ =
      (some ⟨some ⟨"/a"⟩, [("title", "One")]⟩,
        ⟨[⟨"/a"⟩, ⟨"/b"⟩, ⟨"/a"⟩], [], 1⟩) ∧
    MetadataIter.next ⟨[⟨"/a"⟩, ⟨"/b"⟩, ⟨"/a"⟩], [], 1⟩ =
      (some (Metadata.new ⟨"/b"⟩), ⟨[⟨"/a"⟩, ⟨"/b"⟩, ⟨"/a"⟩], [], 2⟩) ∧
    MetadataIter.next ⟨[⟨"/a"⟩, ⟨"/b"⟩, ⟨"/a"⟩], [], 2⟩ =
      (some (Metadata.new ⟨"/a"⟩), ⟨[⟨"/a"⟩, ⟨"/b"⟩, ⟨"/a"⟩], [], 3⟩) ∧
    MetadataIter.next ⟨[⟨"/a"⟩, ⟨"/b"⟩, ⟨"/a"⟩], [], 3⟩ =
      (none, ⟨[⟨"/a"⟩, ⟨"/b"⟩, ⟨"/a"⟩], [], 3⟩)) := by
  refine ⟨fun next_id h => ?_, fun h => ?_, by decide⟩
  · rw [List.get?_eq_getElem?] at h
    simp [MetadataIter.next, h]
  · rw [List.get?_eq_getElem?] at h
    simp [MetadataIter.next, h]

/-- C7 witness. -/
theorem metadata_iter_next_spec_witness :
    MetadataIter.next ⟨[⟨"/a"⟩], [(⟨"/a"⟩, ⟨some ⟨"/a"⟩, []⟩)], 0⟩ =
      (some ((Cache.find [(⟨"/a"⟩, ⟨some ⟨"/a"⟩, []⟩)] ⟨"/a"⟩).getD
          (Metadata.new ⟨"/a"⟩)),
        ⟨[⟨"/a"⟩], Cache.remove [(⟨"/a"⟩, ⟨some ⟨"/a"⟩, []⟩)] ⟨"/a"⟩, 1⟩) :=
  (metadata_iter_next_spec ⟨[⟨"/a"⟩], [(⟨"/a"⟩, ⟨some ⟨"/a"⟩, []⟩)], 0⟩).1
    ⟨"/a"⟩ rfl

/-- C8: `remove(x)` leaves zero occurrences of `x` in the id sequence and
no cache entry for `x`, keeps the surviving ids in their relative order (a
sublist with every other id's multiplicity intact), and leaves every other
cache entry unchanged; the operation is total, so nothing fails when `x`
is absent. -/
theorem remove_removes_all_occurrences (tl : TrackList) (x : TrackID) :
    x ∉ (tl.remove x).ids ∧
    (tl.remove x).ids.Sublist tl.ids ∧
    (∀ y, y ≠ x → (tl.remove x).ids.count y = tl.ids.count y) ∧
    Cache.find (tl.remove x).metadata_cache x = none ∧
    (∀ y, y ≠ x → Cache.find (tl.remove x).metadata_cache y =
      Cache.find tl.metadata_cache y) := by
  refine ⟨?_, ?_, ?_, Cache.find_remove_self _ _,
    fun y hy => Cache.find_remove_ne _ _ _ hy⟩
  · simp [TrackList.remove, List.mem_filter]
  · exact List.filter_sublist _
  · intro y hy
    show (tl.ids.filter _).count y = _
    rw [List.count_filter]
    simp [hy]

/-- C8 witness: removing `/t/1` from `[/t/1, /t/2, /t/1]`. -/
theorem remove_removes_all_occurrences_witness :
    ⟨"/t/1"⟩ ∉ (TrackList.remove
        ⟨[⟨"/t/1"⟩, ⟨"/t/2"⟩, ⟨"/t/1"⟩], [(⟨"/t/1"⟩, ⟨none, []⟩)]⟩
        ⟨"/t/1"⟩).ids ∧
    (TrackList.remove
        ⟨[⟨"/t/1"⟩, ⟨"/t/2"⟩, ⟨"/t/1"⟩], [(⟨"/t/1"⟩, ⟨none, []⟩)]⟩
        ⟨"/t/1"⟩).ids.count ⟨"/t/2"⟩ =
      ([⟨"/t/1"⟩, ⟨"/t/2"⟩, ⟨"/t/1"⟩] : List TrackID).count ⟨"/t/2"⟩ := by
  have h := remove_removes_all_occurrences
    ⟨[⟨"/t/1"⟩, ⟨"/t/2"⟩, ⟨"/t/1"⟩], [(⟨"/t/1"⟩, ⟨none, []⟩)]⟩ ⟨"/t/1"⟩
  exact ⟨h.1, h.2.2.1 ⟨"/t/2"⟩ (by decide)⟩

/-- C9: `insert` with a metadata record carrying no identifier leaves the
whole track list — id sequence and cache — unchanged, without error. -/
theorem insert_without_id_is_noop (tl : TrackList) (after : TrackID)
    (m : Metadata) (h : m.track_id = none) : tl.insert after m = tl := by
  simp [TrackList.insert, h]

/-- C9 witness. -/
theorem insert_without_id_is_noop_witness :
    TrackList.insert ⟨[⟨"/t/1"⟩], []⟩ ⟨"/t/1"⟩ ⟨none, [("title", "x")]⟩ =
      ⟨[⟨"/t/1"⟩], []⟩ :=
  insert_without_id_is_noop ⟨[⟨"/t/1"⟩], []⟩ ⟨"/t/1"⟩
    ⟨none, [("title", "x")]⟩ rfl

/-- C10: `update_metadata(id, m)` leaves the id sequence unchanged, sets
the cache entry for `id` to `m` — whether or not `id` is on the list — and
leaves the cache entry of every other identifier unchanged. -/
theorem update_metadata_frame (tl : TrackList) (id : TrackID)
    (m : Metadata) :
    (tl.update_metadata id m).ids = tl.ids ∧
    Cache.find (tl.update_metadata id m).metadata_cache id = some m ∧
    ∀ y, y ≠ id → Cache.find (tl.update_metadata id m).metadata_cache y =
      Cache.find tl.metadata_cache y :=
  ⟨rfl, Cache.find_insert_self _ _ _,
    fun y hy => Cache.find_insert_ne _ _ _ y hy⟩

/-- C10 witness: updating an id absent from the list. -/
theorem update_metadata_frame_witness :
    (TrackList.update_metadata ⟨[⟨"/t/1"⟩], []⟩ ⟨"/t/9"⟩
        ⟨some ⟨"/t/9"⟩, []⟩).ids = [⟨"/t/1"⟩] ∧
    Cache.find (TrackList.update_metadata ⟨[⟨"/t/1"⟩], []⟩ ⟨"/t/9"⟩
        ⟨some ⟨"/t/9"⟩, []⟩).metadata_cache ⟨"/t/1"⟩ =
      Cache.find ([] : Cache) ⟨"/t/1"⟩ := by
  have h := update_metadata_frame ⟨[⟨"/t/1"⟩], []⟩ ⟨"/t/9"⟩
    ⟨some ⟨"/t/9"⟩, []⟩
  exact ⟨h.1, h.2.2 ⟨"/t/1"⟩ (by decide)⟩

end Mpris
